import Mathlib

/-!
Verification of the kiro-synth core delay line, delay effect and pitch
shift calculator. The Rust source is generic over a floating point
capability trait `F: Float`; the ring-arithmetic components (delay line
and delay effect) are embedded over `ℚ` and the exponential pitch shift
calculator over `ℝ`, both idealising the float type as an exact field,
matching the precision-agnostic numeric abstraction of the engine.
-/

namespace KiroSynth

/-- Embedding of `DelayLine<F>` from `src/kiro-synth-core/src/effects/delay.rs`:
a write cursor `head` and a fixed buffer, here a `List ℚ`. -/
structure DelayLine where
  head : ℕ
  buffer : List ℚ
deriving Repr, DecidableEq

namespace DelayLine

/-- `DelayLine::new(buffer)`: head starts at 0. -/
def new (buffer : List ℚ) : DelayLine :=
  { head := 0, buffer := buffer }

/-- `DelayLine::update`: `self.buffer[self.head] = input; self.head = (self.head + 1) % self.buffer.len()`. -/
def update (s : DelayLine) (input : ℚ) : DelayLine :=
  { head := (s.head + 1) % s.buffer.length
    buffer := s.buffer.set s.head input }

/-- `DelayLine::get(delay_samples)`:
`offset = len.min(delay_samples)`; `index = len - offset + head` when
`offset > head`, else `head - offset`. Rust indexing with the in-bounds
invariant is embedded as `getD _ 0`. -/
def get (s : DelayLine) (delay_samples : ℕ) : ℚ :=
  let offset := min s.buffer.length delay_samples
  let index := if s.head < offset then s.buffer.length - offset + s.head else s.head - offset
  s.buffer.getD index 0

/-- Folding `update` over a list of input samples, oldest first. -/
def updateAll (s : DelayLine) (inputs : List ℚ) : DelayLine :=
  inputs.foldl update s

end DelayLine

/-- Embedding of `Delay<F>` from `src/kiro-synth-core/src/effects/delay.rs`. -/
structure Delay where
  delay_samples : ℕ
  delay_seconds : ℚ
  feedback : ℚ
  mix : ℚ
  delayline : DelayLine
  sample_rate : ℚ
deriving Repr, DecidableEq

namespace Delay

/-- `Delay::new(sample_rate, buffer)`: `delay_samples = 1` (the comment in the
source notes it must never be 0), `delay_seconds = 1 / sample_rate`, zero
feedback and mix, fresh delay line over the buffer. -/
def new (sample_rate : ℚ) (buffer : List ℚ) : Delay :=
  { delay_samples := 1
    delay_seconds := 1 / sample_rate
    feedback := 0
    mix := 0
    delayline := DelayLine.new buffer
    sample_rate := sample_rate }

/-- Truncation of a nonnegative rational to a natural number, embedding
`to_usize().unwrap()` from the num-traits crate (which truncates toward
zero; on a negative argument the Rust code panics, which is outside this
model — every use below has a nonnegative argument). -/
def truncToNat (q : ℚ) : ℕ := ⌊q⌋.toNat

/-- `Delay::set_delay_seconds`: stores the seconds and recomputes
`delay_samples = (delay_seconds * self.sample_rate).to_usize().unwrap()`,
with no lower-bound guard. -/
def set_delay_seconds (d : Delay) (t : ℚ) : Delay :=
  { d with delay_seconds := t, delay_samples := truncToNat (t * d.sample_rate) }

/-- `Delay::set_feedback`. -/
def set_feedback (d : Delay) (feedback : ℚ) : Delay :=
  { d with feedback := feedback }

/-- `Delay::set_mix`. -/
def set_mix (d : Delay) (mix : ℚ) : Delay :=
  { d with mix := mix }

/-- `Delay::process(input)`: reads `sample = delayline.get(delay_samples)`,
writes `input + sample * feedback` into the line, and returns
`sample * mix + input * (1 - mix)`. The returned pair is
(output, updated state). -/
def process (d : Delay) (input : ℚ) : ℚ × Delay :=
  let sample := d.delayline.get d.delay_samples
  (sample * d.mix + input * (1 - d.mix),
   { d with delayline := d.delayline.update (input + sample * d.feedback) })

end Delay

/-- Embedding of `OscPitchShift<F>` from
`src/kiro-synth-core/src/oscillators/osc_pitch_shift.rs`: five shift
contributions, all stored in semitone units. -/
structure OscPitchShift where
  octaves_shift : ℝ
  semitones_shift : ℝ
  cents_shift : ℝ
  pitch_bend : ℝ
  modulation : ℝ

namespace OscPitchShift

/-- `OscPitchShift::default()`: all five contributions zero. -/
noncomputable def default : OscPitchShift :=
  { octaves_shift := 0
    semitones_shift := 0
    cents_shift := 0
    pitch_bend := 0
    modulation := 0 }

/-- `set_octaves`: stores `octaves * 12`. -/
noncomputable def set_octaves (p : OscPitchShift) (octaves : ℝ) : OscPitchShift :=
  { p with octaves_shift := octaves * 12 }

/-- `set_semitones`: stores the raw value. -/
noncomputable def set_semitones (p : OscPitchShift) (semitones : ℝ) : OscPitchShift :=
  { p with semitones_shift := semitones }

/-- `set_cents`: stores `cents * 0.01`. -/
noncomputable def set_cents (p : OscPitchShift) (cents : ℝ) : OscPitchShift :=
  { p with cents_shift := cents * (1 / 100) }

/-- `set_pitch_bend`: stores the raw value. -/
noncomputable def set_pitch_bend (p : OscPitchShift) (pitch_bend : ℝ) : OscPitchShift :=
  { p with pitch_bend := pitch_bend }

/-- `set_modulation`: stores the raw value. -/
noncomputable def set_modulation (p : OscPitchShift) (modulation : ℝ) : OscPitchShift :=
  { p with modulation := modulation }

/-- `multiplier()`: `2 ^ (total_semitones_shift / 12)` with real
exponentiation (`powf`). -/
noncomputable def multiplier (p : OscPitchShift) : ℝ :=
  (2 : ℝ) ^ ((p.octaves_shift + p.semitones_shift + p.cents_shift + p.pitch_bend + p.modulation) / 12)

end OscPitchShift

namespace DelayLine

theorem length_update (s : DelayLine) (x : ℚ) :
    (s.update x).buffer.length = s.buffer.length := by
  simp [update]

theorem head_update_lt (s : DelayLine) (x : ℚ) (h : s.head < s.buffer.length) :
    (s.update x).head < (s.update x).buffer.length := by
  simp only [update, List.length_set]
  exact Nat.mod_lt _ (by omega)

/-- The ring index used by `get` after one `update`, rewritten without `%`:
with head advanced from `h` to `(h + 1) % len`, the slot read at offset `k`
is `h + 1 - k`, wrapping to `len + h + 1 - k` when `k > h + 1`. -/
theorem ring_index_eq (len h k : ℕ) (hh : h < len) (hk1 : 1 ≤ k) (hk : k ≤ len) :
    (if (h + 1) % len < k then len - k + (h + 1) % len else (h + 1) % len - k)
    = if k ≤ h + 1 then h + 1 - k else len + h + 1 - k := by
  by_cases hl : h + 1 < len
  · rw [Nat.mod_eq_of_lt hl]
    by_cases hc : h + 1 < k
    · rw [if_pos hc, if_neg (by omega)]; omega
    · rw [if_neg hc, if_pos (by omega)]
  · have hmod : (h + 1) % len = 0 := by
      have he : h + 1 = len := by omega
      rw [he, Nat.mod_self]
    rw [hmod, if_pos (by omega), if_pos (by omega)]; omega

/-- Reading at offset 1 right after an update returns the sample just written. -/
theorem get_update_one (s : DelayLine) (x : ℚ) (h : s.head < s.buffer.length) :
    (s.update x).get 1 = x := by
  have h1 : 1 ≤ s.buffer.length := by omega
  simp only [get, update, List.length_set]
  rw [min_eq_right h1, ring_index_eq s.buffer.length s.head 1 h le_rfl h1,
    if_pos (by omega : 1 ≤ s.head + 1)]
  have hidx : s.head + 1 - 1 = s.head := by omega
  rw [hidx, List.getD_eq_getElem _ _ (by simpa using h)]
  exact List.getElem_set_self _

/-- Reading at offset `k ≥ 2` right after an update returns what offset
`k - 1` returned before the update. -/
theorem get_update_succ (s : DelayLine) (x : ℚ) (k : ℕ) (h : s.head < s.buffer.length)
    (hk2 : 2 ≤ k) (hk : k ≤ s.buffer.length) :
    (s.update x).get k = s.get (k - 1) := by
  simp only [get, update, List.length_set]
  rw [min_eq_right hk, min_eq_right (by omega : k - 1 ≤ s.buffer.length),
    ring_index_eq s.buffer.length s.head k h (by omega) hk]
  by_cases hc : k ≤ s.head + 1
  · rw [if_pos hc, if_neg (by omega : ¬ s.head < k - 1)]
    have hidx : s.head + 1 - k = s.head - (k - 1) := by omega
    rw [hidx]
    have hlt : s.head - (k - 1) < s.buffer.length := by omega
    rw [List.getD_eq_getElem _ _ (by simpa using hlt), List.getD_eq_getElem _ _ hlt]
    exact List.getElem_set_ne (by omega) _
  · rw [if_neg hc, if_pos (by omega : s.head < k - 1)]
    have hidx : s.buffer.length + s.head + 1 - k = s.buffer.length - (k - 1) + s.head := by
      omega
    rw [hidx]
    have hlt : s.buffer.length - (k - 1) + s.head < s.buffer.length := by omega
    rw [List.getD_eq_getElem _ _ (by simpa using hlt), List.getD_eq_getElem _ _ hlt]
    exact List.getElem_set_ne (by omega) _

/-- `get` saturates: any offset at or beyond the buffer length reads the
same slot as offset `buffer.length`. -/
theorem get_saturates (s : DelayLine) (k : ℕ) (h : s.buffer.length ≤ k) :
    s.get k = s.get s.buffer.length := by
  simp only [get, min_eq_left h, min_self]

theorem length_updateAll (s : DelayLine) (us : List ℚ) :
    (s.updateAll us).buffer.length = s.buffer.length := by
  induction us generalizing s with
  | nil => rfl
  | cons x us ih =>
    show ((s.update x).updateAll us).buffer.length = s.buffer.length
    rw [ih, length_update]

theorem head_updateAll_lt (s : DelayLine) (us : List ℚ) (h : s.head < s.buffer.length) :
    (s.updateAll us).head < (s.updateAll us).buffer.length := by
  induction us generalizing s with
  | nil => exact h
  | cons x us ih => exact ih (s.update x) (head_update_lt s x h)

/-- After any run of updates, offset `k` (valid and not exceeding the number
of updates) reads the `k`-th most recent input. -/
theorem get_updateAll (us : List ℚ) :
    ∀ (s : DelayLine) (k : ℕ), s.head < s.buffer.length →
      1 ≤ k → k ≤ s.buffer.length → k ≤ us.length →
      (s.updateAll us).get k = us.getD (us.length - k) 0 := by
  induction us using List.reverseRecOn with
  | nil =>
    intro s k _ hk1 _ hk3
    simp only [List.length_nil] at hk3
    omega
  | append_singleton us x ih =>
    intro s k hs hk1 hk2 hk3
    have hupd : s.updateAll (us ++ [x]) = (s.updateAll us).update x := by
      simp [updateAll]
    have hwf : (s.updateAll us).head < (s.updateAll us).buffer.length :=
      head_updateAll_lt s us hs
    have hlen : (s.updateAll us).buffer.length = s.buffer.length := length_updateAll s us
    have hL : (us ++ [x]).length = us.length + 1 := by simp
    rw [hupd]
    rcases eq_or_lt_of_le hk1 with h1 | h2
    · subst h1
      rw [get_update_one _ x hwf]
      have hidx : (us ++ [x]).length - 1 = us.length := by omega
      rw [hidx, List.getD_eq_getElem _ _ (by simp), List.getElem_concat_length]
      rfl
    · rw [get_update_succ _ x k hwf (by omega) (by rw [hlen]; exact hk2)]
      rw [ih s (k - 1) hs (by omega) (by omega) (by omega)]
      have hidx : (us ++ [x]).length - k = us.length - (k - 1) := by omega
      rw [hidx]
      rw [List.getD_append us [x] 0 _ (by omega)]

end DelayLine

/-- C1: for a delay line whose head is in range, after at least as many
updates as the buffer holds slots (fully exercised), `get k` for
`1 ≤ k ≤ N` returns the value passed to the k-th most recent update, and
`get k` for `k > N` returns the same value as `get N` (saturation, not an
error). -/
theorem DelayLine.get_after_full_exercise (s : DelayLine) (us : List ℚ) (k : ℕ)
    (hs : s.head < s.buffer.length) (hfull : s.buffer.length ≤ us.length) :
    (1 ≤ k → k ≤ s.buffer.length →
      (s.updateAll us).get k = us.getD (us.length - k) 0) ∧
    (s.buffer.length < k →
      (s.updateAll us).get k = (s.updateAll us).get s.buffer.length) := by
  constructor
  · intro hk1 hk2
    exact DelayLine.get_updateAll us s k hs hk1 hk2 (le_trans hk2 hfull)
  · intro hk
    have hlen := DelayLine.length_updateAll s us
    have hsat := DelayLine.get_saturates (s.updateAll us) k (by omega)
    rw [hsat, hlen]

/-- Witness for C1: a two-slot line fed three samples; offset 2 reads the
second most recent sample. -/
theorem DelayLine.get_after_full_exercise_witness :
    ((DelayLine.mk 0 [0, 0]).updateAll [1, 2, 3]).get 2 = 2 := by
  have h := (DelayLine.get_after_full_exercise (DelayLine.mk 0 [0, 0]) [1, 2, 3] 2
    (by decide) (by decide)).1 (by decide) (by decide)
  simpa using h

/-- C5: `update` writes the sample at `head` and advances `head` by one
modulo the buffer length; on a non-empty buffer the head stays in range
(as it is at construction, where it starts at 0) and the buffer length is
unchanged. -/
theorem DelayLine.update_spec (s : DelayLine) (x : ℚ) (h : s.buffer.length ≠ 0) :
    (DelayLine.new s.buffer).head = 0 ∧
    (s.update x).buffer = s.buffer.set s.head x ∧
    (s.update x).head = (s.head + 1) % s.buffer.length ∧
    (s.update x).buffer.length = s.buffer.length ∧
    (s.update x).head < (s.update x).buffer.length :=
  ⟨rfl, rfl, rfl, DelayLine.length_update s x, by
    simp only [DelayLine.update, List.length_set]
    exact Nat.mod_lt _ (by omega)⟩

/-- Witness for C5: updating a concrete three-slot line at head 1. -/
theorem DelayLine.update_spec_witness :
    ((DelayLine.mk 1 [5, 6, 7]).update 9).buffer = [5, 9, 7] ∧
    ((DelayLine.mk 1 [5, 6, 7]).update 9).head = 2 := by
  have h := DelayLine.update_spec (DelayLine.mk 1 [5, 6, 7]) 9 (by decide)
  refine ⟨?_, ?_⟩
  · rw [h.2.1]
    rfl
  · rw [h.2.2.1]
    decide

/-- C10: `get 0` reads the slot at `head` — the one the next update call
will overwrite, holding the oldest stored sample — and returns the same
value as `get buffer.length`, not the most recently written sample. -/
theorem DelayLine.get_zero_eq_get_length (s : DelayLine) (h : s.head < s.buffer.length) :
    s.get 0 = s.get s.buffer.length ∧ s.get 0 = s.buffer.getD s.head 0 := by
  have h0 : s.get 0 = s.buffer.getD s.head 0 := by
    simp [DelayLine.get]
  have hN : s.get s.buffer.length = s.buffer.getD s.head 0 := by
    simp only [DelayLine.get, min_self]
    rw [if_pos h]
    have hidx : s.buffer.length - s.buffer.length + s.head = s.head := by omega
    rw [hidx]
  exact ⟨h0.trans hN.symm, h0⟩

/-- Witness for C10: head 1 in a three-slot buffer; both reads return the
slot under the head. -/
theorem DelayLine.get_zero_eq_get_length_witness :
    (DelayLine.mk 1 [3, 4, 5]).get 0 = (DelayLine.mk 1 [3, 4, 5]).get 3 ∧
    (DelayLine.mk 1 [3, 4, 5]).get 0 = 4 := by
  have h := DelayLine.get_zero_eq_get_length (DelayLine.mk 1 [3, 4, 5]) (by decide)
  refine ⟨by simpa using h.1, ?_⟩
  rw [h.2]
  rfl

/-- C2: `process` returns `sample * mix + input * (1 - mix)` where `sample`
is the delay-line value at offset `delay_samples` read before any write;
its only state change is one delay-line update storing
`input + sample * feedback`, every other field being unchanged. -/
theorem Delay.process_spec (d : Delay) (input : ℚ) :
    (d.process input).1
      = d.delayline.get d.delay_samples * d.mix + input * (1 - d.mix) ∧
    (d.process input).2.delayline
      = d.delayline.update (input + d.delayline.get d.delay_samples * d.feedback) ∧
    (d.process input).2.delay_samples = d.delay_samples ∧
    (d.process input).2.delay_seconds = d.delay_seconds ∧
    (d.process input).2.feedback = d.feedback ∧
    (d.process input).2.mix = d.mix ∧
    (d.process input).2.sample_rate = d.sample_rate :=
  ⟨rfl, rfl, rfl, rfl, rfl, rfl, rfl⟩

/-- C6: with `mix = 0` the output is the raw input regardless of feedback;
with `feedback = 0` the output is `input*(1-mix) + mix*delayed` and the
buffer receives the plain input (no recirculation); with `mix = 1` and
`feedback = 0` the output is the pure delayed sample. -/
theorem Delay.process_dry_wet_cases (d : Delay) (input : ℚ) :
    (d.mix = 0 → (d.process input).1 = input) ∧
    (d.feedback = 0 →
      (d.process input).1
        = input * (1 - d.mix) + d.mix * d.delayline.get d.delay_samples ∧
      (d.process input).2.delayline = d.delayline.update input) ∧
    (d.mix = 1 → d.feedback = 0 →
      (d.process input).1 = d.delayline.get d.delay_samples) := by
  refine ⟨fun hm => ?_, fun hf => ⟨?_, ?_⟩, fun hm hf => ?_⟩
  · simp [Delay.process, hm]
  · simp [Delay.process]
    ring
  · simp [Delay.process, hf]
  · simp [Delay.process, hm]

/-- Witness for C6: a freshly constructed delay has `mix = 0` and returns
the raw input; with `mix` set to 1 (feedback still 0) it returns the
delayed sample, 0 for an all-zero buffer. -/
theorem Delay.process_dry_wet_cases_witness :
    ((Delay.new 10 [0, 0]).process 5).1 = 5 ∧
    (((Delay.new 10 [0, 0]).set_mix 1).process 5).1 = 0 := by
  refine ⟨(Delay.process_dry_wet_cases (Delay.new 10 [0, 0]) 5).1 rfl, ?_⟩
  have h := (Delay.process_dry_wet_cases ((Delay.new 10 [0, 0]).set_mix 1) 5).2.2 rfl rfl
  rw [h]
  simp [Delay.new, Delay.set_mix, DelayLine.new, DelayLine.get]

/-- C3 evidence: `set_delay_seconds 0` on a freshly constructed delay
stores a sample offset of 0 — the code performs the truncation but has no
guard keeping the offset at a minimum of 1, contradicting the never-zero
requirement in the source comment. -/
theorem Delay.set_delay_seconds_zero_unguarded :
    ((Delay.new 44100 [0, 0]).set_delay_seconds 0).delay_samples = 0 := by
  simp [Delay.new, Delay.set_delay_seconds, Delay.truncToNat]

/-- C4: after the five setters store their pre-scaled values, `multiplier`
equals `2 ^ ((octaves*12 + semitones + cents*0.01 + pitch_bend + modulation) / 12)`
in terms of the raw setter arguments, whatever state the setters started
from. -/
theorem OscPitchShift.multiplier_after_setters (p : OscPitchShift) (o s c pb m : ℝ) :
    (((((p.set_octaves o).set_semitones s).set_cents c).set_pitch_bend pb).set_modulation m).multiplier
      = (2 : ℝ) ^ ((o * 12 + s + c * (1 / 100) + pb + m) / 12) := by
  simp [OscPitchShift.multiplier, OscPitchShift.set_octaves, OscPitchShift.set_semitones,
    OscPitchShift.set_cents, OscPitchShift.set_pitch_bend, OscPitchShift.set_modulation]

/-- C7: all contributions zero give multiplier 1; one octave alone gives
exactly 2; twelve semitones alone give exactly 2. -/
theorem OscPitchShift.multiplier_reference_points :
    OscPitchShift.default.multiplier = 1 ∧
    (OscPitchShift.default.set_octaves 1).multiplier = 2 ∧
    (OscPitchShift.default.set_semitones 12).multiplier = 2 := by
  refine ⟨?_, ?_, ?_⟩
  · have h : ((0:ℝ) + 0 + 0 + 0 + 0) / 12 = 0 := by norm_num
    simp only [OscPitchShift.multiplier, OscPitchShift.default, h, Real.rpow_zero]
  · have h : ((1:ℝ) * 12 + 0 + 0 + 0 + 0) / 12 = 1 := by norm_num
    simp only [OscPitchShift.multiplier, OscPitchShift.set_octaves, OscPitchShift.default,
      h, Real.rpow_one]
  · have h : ((0:ℝ) + 12 + 0 + 0 + 0) / 12 = 1 := by norm_num
    simp only [OscPitchShift.multiplier, OscPitchShift.set_semitones, OscPitchShift.default,
      h, Real.rpow_one]

/-- C8: `multiplier` is strictly increasing in the argument of each of the
five setters, the other four contributions held fixed. -/
theorem OscPitchShift.multiplier_strictMono_in_each (p : OscPitchShift) (v w : ℝ)
    (hvw : v < w) :
    (p.set_octaves v).multiplier < (p.set_octaves w).multiplier ∧
    (p.set_semitones v).multiplier < (p.set_semitones w).multiplier ∧
    (p.set_cents v).multiplier < (p.set_cents w).multiplier ∧
    (p.set_pitch_bend v).multiplier < (p.set_pitch_bend w).multiplier ∧
    (p.set_modulation v).multiplier < (p.set_modulation w).multiplier := by
  refine ⟨?_, ?_, ?_, ?_, ?_⟩ <;>
    simp only [OscPitchShift.multiplier, OscPitchShift.set_octaves,
      OscPitchShift.set_semitones, OscPitchShift.set_cents, OscPitchShift.set_pitch_bend,
      OscPitchShift.set_modulation] <;>
    exact (Real.rpow_lt_rpow_left_iff one_lt_two).mpr (by linarith)

/-- Witness for C8: one octave up from the default strictly raises the
multiplier. -/
theorem OscPitchShift.multiplier_strictMono_in_each_witness :
    (OscPitchShift.default.set_octaves 0).multiplier
      < (OscPitchShift.default.set_octaves 1).multiplier :=
  (OscPitchShift.multiplier_strictMono_in_each OscPitchShift.default 0 1 (by norm_num)).1

/-- C9: the combined multiplier is strictly positive for every state; the
formula never produces non-positive output. -/
theorem OscPitchShift.multiplier_pos (p : OscPitchShift) : 0 < p.multiplier :=
  Real.rpow_pos_of_pos (by norm_num) _

end KiroSynth
